import Mathlib

/-!
Verification of the camera_index_tool program (camera_index_tool.py).

The program converts between gzip-compressed byte arrays embedded in a C
header file (camera_index.h) and standalone asset files.  Documents are
modelled as lists of lines, each line a list of characters, exactly as
produced by Python readlines (each line keeps its trailing newline).  Byte
strings are lists of naturals below 256.  The gzip library is external to
the program and is modelled as an abstract function parameter.

Definitions are translated from the source:
  - scanTokens      embeds the re.finditer("0x[0-9A-Fa-f]\x7b2\x7d", line)
                    collection plus int(tok, 16) in parse_c_array
  - parse_go / parse_c_array   embed parse_c_array
  - matchComment / matchDefine / matchDecl   embed the three re.match
                    patterns of find_arrays (prefix-anchored matching,
                    maximal word-character runs for the backslash-w-plus
                    groups, as the Python regex engine resolves them)
  - find_go / find_arrays      embed the find_arrays generator; the result
                    records the blocks yielded before the generator either
                    finished or raised ValueError, plus an error flag
  - fmtByte / renderLine / c_parts_go / bytes_to_c_array  embed
                    bytes_to_c_array (indent "  ", 12 bytes per line)
  - utf8Dec / utf8Enc          embed bytes.decode("utf-8") (strict) and
                    str encoding to UTF-8 as used by extract
  - procBlock / extract_go / extract   embed extract
  - assembleBlock / embed_locate / embed_run   embed embed
-/

/-- Python str.strip default whitespace characters (ASCII range). -/
def isPySpace (c : Char) : Bool :=
  c = ' ' ∨ c = '\t' ∨ c = '\n' ∨ c = '\r' ∨ c = '\x0b' ∨ c = '\x0c'

/-- Python str.strip: remove leading and trailing whitespace. -/
def pyStrip (l : List Char) : List Char :=
  ((l.dropWhile isPySpace).reverse.dropWhile isPySpace).reverse

/-- The closing marker line content "};" tested by parse_c_array. -/
def closingLine : List Char := ['\x7d', ';']

/-- Hexadecimal digit as accepted by the pattern 0x[0-9A-Fa-f]. -/
def isHexDigit (c : Char) : Bool :=
  c.isDigit ∨ ('a' ≤ c ∧ c ≤ 'f') ∨ ('A' ≤ c ∧ c ≤ 'F')

/-- Value of a hexadecimal digit character, as int(tok, 16) computes it. -/
def hexVal (c : Char) : Nat :=
  if c.isDigit then c.toNat - 48
  else if 'a' ≤ c ∧ c ≤ 'f' then c.toNat - 87
  else c.toNat - 55

/-- Left-to-right collection of all non-overlapping matches of the pattern
0x[0-9A-Fa-f]\x7b2\x7d in a line, converted to byte values: the token
collection step of parse_c_array.  On a failed match the scan advances by
one character, as re.finditer does. -/
def scanTokens : List Char → List Nat
  | [] => []
  | '0' :: 'x' :: c1 :: c2 :: rest2 =>
    if isHexDigit c1 && isHexDigit c2 then
      (hexVal c1 * 16 + hexVal c2) :: scanTokens rest2
    else scanTokens ('x' :: c1 :: c2 :: rest2)
  | _ :: rest => scanTokens rest

/-- The loop of parse_c_array over the lines from the start index: collect
tokens from each line until a line whose stripped content is "};", returning
the collected bytes and the relative offset of the closing line; none models
the ValueError raised when the document ends first. -/
def parse_go : List (List Char) → List Nat → Option (List Nat × Nat)
  | [], _ => none
  | l :: rest, acc =>
    if pyStrip l = closingLine then some (acc, 0)
    else
      match parse_go rest (acc ++ scanTokens l) with
      | none => none
      | some (d, k) => some (d, k + 1)

/-- parse_c_array(lines, start_idx): bytes collected from line start_idx on,
with the absolute index of the closing line; none models ValueError. -/
def parse_c_array (lines : List (List Char)) (start : Nat) : Option (List Nat × Nat) :=
  match parse_go (lines.drop start) [] with
  | none => none
  | some (d, k) => some (d, start + k)

/-- Uppercase hexadecimal digit characters, as produced by format 02X. -/
def hexChar (d : Nat) : Char := ("0123456789ABCDEF".toList).getD d '0'

/-- Rendering of one byte as in the f-string "0x" followed by format 02X:
uppercase hexadecimal, two digits, zero padded (bytes are below 256). -/
def fmtByte (b : Nat) : List Char := ['0', 'x', hexChar (b / 16), hexChar (b % 16)]

/-- Python ", ".join on a list of strings. -/
def joinComma : List (List Char) → List Char
  | [] => []
  | [x] => x
  | x :: y :: tl => x ++ ',' :: ' ' :: joinComma (y :: tl)

/-- Python "\n".join on a list of strings. -/
def joinNL : List (List Char) → List Char
  | [] => []
  | [x] => x
  | x :: y :: tl => x ++ '\n' :: joinNL (y :: tl)

/-- One line of bytes_to_c_array: indent, the comma-space joined byte
renderings of one chunk, and a trailing comma when more data follows
(the Python test i + per_line < len(data)). -/
def renderLine (chunk : List Nat) (more : Bool) : List Char :=
  ' ' :: ' ' :: (joinComma (chunk.map fmtByte) ++ (if more then [','] else []))

/-- The loop of bytes_to_c_array over range(0, len(data), 12), written as
fuel-indexed recursion on the remaining data; the fuel is the length of the
data, which bounds the number of loop iterations. -/
def c_parts_go : Nat → List Nat → List (List Char)
  | 0, _ => []
  | _, [] => []
  | f + 1, b :: bs =>
    renderLine ((b :: bs).take 12) (!((b :: bs).drop 12).isEmpty) ::
      c_parts_go f ((b :: bs).drop 12)

/-- The parts list built by bytes_to_c_array (one element per output line). -/
def c_array_parts (data : List Nat) : List (List Char) := c_parts_go data.length data

/-- bytes_to_c_array(data): the parts joined by newlines, no trailing
newline. -/
def bytes_to_c_array (data : List Nat) : List Char := joinNL (c_array_parts data)

-- Basic sanity checks on concrete inputs.
example : scanTokens ("  0x1F, 0x8B,".toList) = [31, 139] := by decide
example : bytes_to_c_array [0, 255] = "  0x00, 0xFF".toList := by decide
example : parse_c_array ["  0xAB".toList, closingLine] 0 = some ([171], 1) := by decide

/-- Word character, as matched by the pattern backslash-w (ASCII range). -/
def isWordChar (c : Char) : Bool := c.isAlphanum || c = '_'

/-- Strip a literal prefix, returning the remainder when present. -/
def dropPfx : List Char → List Char → Option (List Char)
  | [], s => some s
  | _ :: _, [] => none
  | p :: ps, c :: cs => if c = p then dropPfx ps cs else none

/-- The comment-line pattern of find_arrays:
re.match of "//File: (index_(w+)).html.gz, Size: (d+)" with w+ and d+ the
word and digit classes.  Returns the captured name.  The w+ group must be
the maximal word-character run, since a dot must follow it. -/
def matchComment (l : List Char) : Option (List Char) :=
  match dropPfx ("//File: index_".toList) l with
  | none => none
  | some r =>
    let w := r.takeWhile isWordChar
    if w = [] then none
    else
      match dropPfx (".html.gz, Size: ".toList) (r.drop w.length) with
      | none => none
      | some r2 =>
        match r2 with
        | c :: _ => if c.isDigit then some w else none
        | [] => none

/-- The length-macro pattern of find_arrays:
re.match of "#define (index_(w+)_html_gz_len) (d+)".  The w+ group together
with the literal suffix must exhaust the maximal word run, since a space
must follow. -/
def matchDefine (l : List Char) : Bool :=
  match dropPfx ("#define index_".toList) l with
  | none => false
  | some r =>
    let w := r.takeWhile isWordChar
    if 12 < w.length ∧ ("_html_gz_len".toList).isSuffixOf w then
      match r.drop w.length with
      | ' ' :: c :: _ => c.isDigit
      | _ => false
    else false

/-- The array-opening pattern of find_arrays:
re.match of "const unsigned char (index_(w+)_html_gz)[] = \x7b".  The w+
group with the literal suffix must exhaust the maximal word run, since an
opening bracket must follow. -/
def matchDecl (l : List Char) : Bool :=
  match dropPfx ("const unsigned char index_".toList) l with
  | none => false
  | some r =>
    let w := r.takeWhile isWordChar
    if 8 < w.length ∧ ("_html_gz".toList).isSuffixOf w then
      ("[] = \x7b".toList).isPrefixOf (r.drop w.length)
    else false

/-- A block yielded by find_arrays: identifier, line index of the comment,
of the length macro, of the first data line, of the closing marker, and the
collected byte payload. -/
structure CBlock where
  name : List Char
  comment_line : Nat
  define_line : Nat
  data_start : Nat
  end_idx : Nat
  data : List Nat
deriving DecidableEq, Repr

/-- Result of running the find_arrays generator to completion: the blocks
yielded in order, and whether the run ended by raising ValueError from
parse_c_array (true) or by reaching the end of the document (false). -/
structure ScanResult where
  blocks : List CBlock
  error : Bool
deriving DecidableEq, Repr

/-- The scanning loop of find_arrays, as fuel-indexed recursion over the
remaining lines; i is the absolute index of the first remaining line.  The
fuel bounds the number of loop iterations, each of which consumes at least
one line. -/
def find_go : Nat → List (List Char) → Nat → ScanResult
  | 0, _, _ => ⟨[], false⟩
  | _, [], _ => ⟨[], false⟩
  | fuel + 1, l0 :: rest, i =>
    match matchComment l0 with
    | none => find_go fuel rest (i + 1)
    | some nm =>
      match rest with
      | [] => ⟨[], false⟩
      | l1 :: rest2 =>
        if matchDefine l1 then
          match rest2 with
          | [] => ⟨[], false⟩
          | l2 :: rest3 =>
            if matchDecl l2 then
              match parse_go rest3 [] with
              | none => ⟨[], true⟩
              | some (data, k) =>
                let res := find_go fuel (rest3.drop (k + 1)) (i + 4 + k)
                ⟨⟨nm, i, i + 1, i + 3, i + 3 + k, data⟩ :: res.blocks, res.error⟩
            else find_go fuel rest3 (i + 3)
        else find_go fuel rest2 (i + 2)

/-- The find_arrays scan of a suffix of the document starting at absolute
line index i, with canonical fuel. -/
def scanFrom (ls : List (List Char)) (i : Nat) : ScanResult := find_go ls.length ls i

/-- find_arrays(path) on the document lines. -/
def find_arrays (doc : List (List Char)) : ScanResult := scanFrom doc 0

-- Sanity check: a two-block document with noise lines.
example :
    find_arrays
      ["// x\n".toList,
       "//File: index_ov2640.html.gz, Size: 2\n".toList,
       "#define index_ov2640_html_gz_len 2\n".toList,
       "const unsigned char index_ov2640_html_gz[] = \x7b\n".toList,
       "  0x1F, 0x8B\n".toList,
       "\x7d;\n".toList,
       "tail\n".toList] =
    ⟨[⟨"ov2640".toList, 1, 2, 4, 5, [31, 139]⟩], false⟩ := by decide

/-- Strict UTF-8 decoding of a byte sequence to a list of code points, as
bytes.decode("utf-8") performs it: rejects truncated and ill-formed
sequences, overlong encodings, surrogate code points and values above
0x10FFFF.  none models UnicodeDecodeError. -/
def utf8Dec : List Nat → Option (List Nat)
  | [] => some []
  | b0 :: rest =>
    if b0 < 0x80 then (utf8Dec rest).map fun cps => b0 :: cps
    else
      match rest with
      | [] => none
      | b1 :: rest1 =>
        if 0xC2 ≤ b0 ∧ b0 ≤ 0xDF then
          if 0x80 ≤ b1 ∧ b1 ≤ 0xBF then
            (utf8Dec rest1).map fun cps => ((b0 - 0xC0) * 64 + (b1 - 0x80)) :: cps
          else none
        else
          match rest1 with
          | [] => none
          | b2 :: rest2 =>
            if 0xE0 ≤ b0 ∧ b0 ≤ 0xEF then
              if (if b0 = 0xE0 then 0xA0 ≤ b1 ∧ b1 ≤ 0xBF
                  else if b0 = 0xED then 0x80 ≤ b1 ∧ b1 ≤ 0x9F
                  else 0x80 ≤ b1 ∧ b1 ≤ 0xBF) ∧ 0x80 ≤ b2 ∧ b2 ≤ 0xBF then
                (utf8Dec rest2).map fun cps =>
                  ((b0 - 0xE0) * 4096 + (b1 - 0x80) * 64 + (b2 - 0x80)) :: cps
              else none
            else
              match rest2 with
              | [] => none
              | b3 :: rest3 =>
                if 0xF0 ≤ b0 ∧ b0 ≤ 0xF4 then
                  if (if b0 = 0xF0 then 0x90 ≤ b1 ∧ b1 ≤ 0xBF
                      else if b0 = 0xF4 then 0x80 ≤ b1 ∧ b1 ≤ 0x8F
                      else 0x80 ≤ b1 ∧ b1 ≤ 0xBF) ∧
                      0x80 ≤ b2 ∧ b2 ≤ 0xBF ∧ 0x80 ≤ b3 ∧ b3 ≤ 0xBF then
                    (utf8Dec rest3).map fun cps =>
                      ((b0 - 0xF0) * 262144 + (b1 - 0x80) * 4096 +
                        (b2 - 0x80) * 64 + (b3 - 0x80)) :: cps
                  else none
                else none

/-- UTF-8 encoding of one code point. -/
def utf8Enc1 (cp : Nat) : List Nat :=
  if cp < 0x80 then [cp]
  else if cp < 0x800 then [0xC0 + cp / 64, 0x80 + cp % 64]
  else if cp < 0x10000 then
    [0xE0 + cp / 4096, 0x80 + cp / 64 % 64, 0x80 + cp % 64]
  else
    [0xF0 + cp / 262144, 0x80 + cp / 4096 % 64, 0x80 + cp / 64 % 64, 0x80 + cp % 64]

/-- UTF-8 encoding of a list of code points: the bytes that writing a
decoded text with encoding "utf-8" puts into the output file. -/
def utf8Enc (cps : List Nat) : List Nat := (cps.map utf8Enc1).flatten

/-- Output file name chosen by extract for a block identifier. -/
def outName (name : List Char) : List Char :=
  "index_".toList ++ name ++ ".html".toList

/-- One observable step of the extract loop per block. -/
inductive ExtractEvent where
  /-- A file of this name was written with these bytes, and the success
  message reported this count. -/
  | wrote (fname : List Char) (content : List Nat) (reported : Nat)
  /-- A warning identifying this block was printed and the block skipped. -/
  | warn (name : List Char)
deriving DecidableEq, Repr

/-- The body of the extract loop for one block: gzip.decompress (the
abstract dec) then decode("utf-8"); any failure is caught and turns into a
warning; on success the decoded text is written back as UTF-8 bytes and the
message reports len(html), the number of characters of the decoded text. -/
def procBlock (dec : List Nat → Option (List Nat)) (b : CBlock) : ExtractEvent :=
  match dec b.data with
  | none => .warn b.name
  | some bs =>
    match utf8Dec bs with
    | none => .warn b.name
    | some cps => .wrote (outName b.name) (utf8Enc cps) cps.length

/-- The extract loop over the blocks yielded by find_arrays, in order. -/
def extract_go (dec : List Nat → Option (List Nat)) : List CBlock → List ExtractEvent
  | [] => []
  | b :: rest => procBlock dec b :: extract_go dec rest

/-- extract(header_path): the per-block events in order, paired with the
error flag of the scan (true when the generator raised ValueError after the
listed blocks had already been processed). -/
def extract (dec : List Nat → Option (List Nat)) (doc : List (List Char)) :
    List ExtractEvent × Bool :=
  (extract_go dec (find_arrays doc).blocks, (find_arrays doc).error)

/-- The identifiers accepted by embed. -/
def validNames : List (List Char) :=
  ["ov2640".toList, "ov3660".toList, "ov5640".toList]

/-- Decimal rendering of a natural number, as the f-strings interpolate
len(gz). -/
def natDigits (n : Nat) : List Char := Nat.toDigits 10 n

/-- The replacement block string assembled by embed: comment line, length
macro, array opening, the canonical array rendering, and the closing
marker, each followed by a newline. -/
def assembleBlock (name : List Char) (gz : List Nat) : List Char :=
  ("//File: index_".toList ++ name ++ ".html.gz, Size: ".toList ++
    natDigits gz.length) ++ '\n' ::
  ("#define index_".toList ++ name ++ "_html_gz_len ".toList ++
    natDigits gz.length) ++ '\n' ::
  ("const unsigned char index_".toList ++ name ++ "_html_gz[] = \x7b".toList) ++ '\n' ::
  bytes_to_c_array gz ++ '\n' :: '\x7d' :: ';' :: ['\n']

/-- Outcome of locating the target block during an in-place embed. -/
inductive LocateResult where
  /-- The loop over find_arrays hit a block with the requested name and
  broke out. -/
  | found (b : CBlock)
  /-- The generator finished without a matching block. -/
  | notFound
  /-- The generator raised ValueError before any matching block. -/
  | parseErrored
deriving DecidableEq, Repr

/-- The locating loop of embed: iterate the find_arrays generator and break
at the first block whose name matches; a ValueError raised before a match
escapes (the break pre-empts an error occurring after the match). -/
def embed_locate (name : List Char) (doc : List (List Char)) : LocateResult :=
  match (find_arrays doc).blocks.find? (fun b => b.name == name) with
  | some b => .found b
  | none => if (find_arrays doc).error then .parseErrored else .notFound

/-- Observable outcome of one embed invocation. -/
inductive EmbedOutcome where
  /-- Invalid identifier: error message and sys.exit(1) before the
  replacement file is read or compressed. -/
  | invalidName
  /-- Without the inplace flag the assembled block is printed. -/
  | printedBlock (blk : List Char)
  /-- With the inplace flag the document is rewritten as these lines. -/
  | updated (newdoc : List (List Char))
  /-- No block with the requested name: error message and sys.exit(1),
  nothing written. -/
  | notFound
  /-- ValueError escaped from the scan: nonzero exit, nothing written. -/
  | parseErrored
deriving DecidableEq, Repr

/-- embed(name, html_path, header_path, inplace): html stands for the bytes
of the replacement file and compressFn for gzip.compress at level 9. -/
def embed_run (name : List Char) (html : List Nat)
    (compressFn : List Nat → List Nat) (doc : List (List Char))
    (inplace : Bool) : EmbedOutcome :=
  if name ∈ validNames then
    let gz := compressFn html
    let block := assembleBlock name gz
    if inplace then
      match embed_locate name doc with
      | .found b => .updated (doc.take b.comment_line ++ [block] ++ doc.drop (b.end_idx + 1))
      | .notFound => .notFound
      | .parseErrored => .parseErrored
    else .printedBlock block
  else .invalidName

-- Sanity checks.
example : utf8Dec [0x68, 0xC3, 0xA9] = some [0x68, 0xE9] := by decide
example : utf8Dec [0x80] = none := by decide
example : utf8Enc [0xE9] = [0xC3, 0xA9] := by decide
example : natDigits 120 = ['1', '2', '0'] := by decide

/-! Helper lemmas about the token scanner and the array rendering. -/

/-- Every uppercase hexadecimal digit is accepted by the token pattern and
evaluates back to its value. -/
lemma hexFacts : ∀ d < 16, isHexDigit (hexChar d) = true ∧ hexVal (hexChar d) = d := by
  decide

/-- The leftmost-match scan steps over any character that is not a zero. -/
lemma scanTokens_cons_ne (c : Char) (rest : List Char) (h : c ≠ '0') :
    scanTokens (c :: rest) = scanTokens rest := by
  rw [scanTokens.eq_def]
  split
  · simp_all
  · rename_i c1 c2 rest2 heq
    rw [List.cons.injEq] at heq
    exact absurd heq.1 h
  · rename_i heq
    rw [List.cons.injEq] at heq
    rw [heq.2]

/-- A string without zeros contains no token. -/
lemma scanTokens_no_zero (l : List Char) (h : ∀ c ∈ l, c ≠ '0') :
    scanTokens l = [] := by
  induction l with
  | nil => rfl
  | cons c rest ih =>
    rw [scanTokens_cons_ne c rest (h c (List.mem_cons_self c rest))]
    exact ih fun x hx => h x (List.mem_cons_of_mem c hx)

/-- The scan consumes a whole rendered byte and yields its value. -/
lemma scanTokens_token (b : Nat) (hb : b < 256) (suffix : List Char) :
    scanTokens (fmtByte b ++ suffix) = b :: scanTokens suffix := by
  have h1 := hexFacts (b / 16) (by omega)
  have h2 := hexFacts (b % 16) (by omega)
  simp only [fmtByte, List.cons_append, List.nil_append, scanTokens, h1.1, h2.1,
    Bool.and_self, if_true, h1.2, h2.2]
  have hq : b / 16 * 16 + b % 16 = b := by omega
  rw [hq]
  rfl

/-- Scanning a comma-space joined list of rendered bytes followed by a
zero-free tail recovers exactly the byte list. -/
lemma scanTokens_joinComma (chunk : List Nat) (hb : ∀ b ∈ chunk, b < 256)
    (tail : List Char) (ht : ∀ c ∈ tail, c ≠ '0') :
    scanTokens (joinComma (chunk.map fmtByte) ++ tail) = chunk := by
  induction chunk with
  | nil =>
    simp only [List.map_nil, joinComma, List.nil_append]
    exact scanTokens_no_zero tail ht
  | cons b rest ih =>
    cases rest with
    | nil =>
      simp only [List.map_cons, List.map_nil, joinComma]
      rw [scanTokens_token b (hb b (by simp)) tail, scanTokens_no_zero tail ht]
    | cons b2 rest2 =>
      simp only [List.map_cons, joinComma, List.cons_append, List.append_assoc]
      rw [scanTokens_token b (hb b (by simp)) _]
      rw [scanTokens_cons_ne ',' _ (by decide), scanTokens_cons_ne ' ' _ (by decide)]
      have := ih (fun x hx => hb x (List.mem_cons_of_mem b hx))
      simp only [List.map_cons] at this
      rw [this]

/-- Scanning one full output line of bytes_to_c_array yields its chunk. -/
lemma scanTokens_renderLine (chunk : List Nat) (hb : ∀ b ∈ chunk, b < 256)
    (more : Bool) :
    scanTokens (renderLine chunk more) = chunk := by
  unfold renderLine
  rw [scanTokens_cons_ne ' ' _ (by decide), scanTokens_cons_ne ' ' _ (by decide)]
  refine scanTokens_joinComma chunk hb _ ?_
  cases more <;> simp

/-- Stripping only removes characters, so membership is preserved. -/
lemma mem_pyStrip {c : Char} {l : List Char} (h : c ∈ pyStrip l) : c ∈ l := by
  unfold pyStrip at h
  rw [List.mem_reverse] at h
  have h2 := (List.dropWhile_sublist (l := (l.dropWhile isPySpace).reverse)
    (p := isPySpace)).subset h
  rw [List.mem_reverse] at h2
  exact (List.dropWhile_sublist (l := l) (p := isPySpace)).subset h2

/-- Characters of a joined list come from its parts or from the comma-space
separator. -/
lemma mem_joinComma {c : Char} :
    ∀ {ls : List (List Char)}, c ∈ joinComma ls → (∃ l ∈ ls, c ∈ l) ∨ c = ',' ∨ c = ' ' := by
  intro ls
  induction ls with
  | nil => intro h; simp [joinComma] at h
  | cons x tl ih =>
    cases tl with
    | nil =>
      intro h
      simp only [joinComma] at h
      exact Or.inl ⟨x, by simp, h⟩
    | cons y tl2 =>
      intro h
      simp only [joinComma, List.mem_append, List.mem_cons] at h
      rcases h with h | h | h | h
      · exact Or.inl ⟨x, by simp, h⟩
      · exact Or.inr (Or.inl h)
      · exact Or.inr (Or.inr h)
      · rcases ih h with ⟨l, hl, hcl⟩ | h2
        · exact Or.inl ⟨l, List.mem_cons_of_mem x hl, hcl⟩
        · exact Or.inr h2

/-- The hexadecimal digit table only produces its sixteen characters. -/
lemma hexChar_mem (d : Nat) : hexChar d ∈ ("0123456789ABCDEF".toList) := by
  unfold hexChar
  rw [List.getD_eq_getElem?_getD]
  rcases h : ("0123456789ABCDEF".toList)[d]? with _ | x
  · simp
  · rw [Option.getD_some]
    exact List.getElem?_mem h

/-- No closing brace occurs on a data line produced by renderLine. -/
lemma rbrace_not_mem_renderLine (chunk : List Nat) (more : Bool) :
    '\x7d' ∉ renderLine chunk more := by
  intro h
  unfold renderLine at h
  simp only [List.mem_cons, List.mem_append] at h
  rcases h with h | h | h | h
  · exact absurd h (by decide)
  · exact absurd h (by decide)
  · rcases mem_joinComma h with ⟨l, hl, hcl⟩ | h2 | h2
    · rcases List.mem_map.mp hl with ⟨b, _, rfl⟩
      simp only [fmtByte, List.mem_cons] at hcl
      rcases hcl with h3 | h3 | h3 | h3 | h3
      · exact absurd h3 (by decide)
      · exact absurd h3 (by decide)
      · have := hexChar_mem (b / 16); rw [← h3] at this; exact absurd this (by decide)
      · have := hexChar_mem (b % 16); rw [← h3] at this; exact absurd this (by decide)
      · exact List.not_mem_nil _ h3
    · exact absurd h2 (by decide)
    · exact absurd h2 (by decide)
  · cases more <;> simp at h

/-- A data line never strips to the closing marker. -/
lemma pyStrip_renderLine_ne (chunk : List Nat) (more : Bool) :
    pyStrip (renderLine chunk more) ≠ closingLine := by
  intro h
  have hm : '\x7d' ∈ pyStrip (renderLine chunk more) := by
    rw [h]; simp [closingLine]
  exact rbrace_not_mem_renderLine chunk more (mem_pyStrip hm)

/-- Fuel irrelevance for the bytes_to_c_array loop. -/
lemma c_parts_go_irrel :
    ∀ f1 f2 (B : List Nat), B.length ≤ f1 → B.length ≤ f2 →
      c_parts_go f1 B = c_parts_go f2 B := by
  intro f1
  induction f1 with
  | zero =>
    intro f2 B h1 _
    have hB : B = [] := List.length_eq_zero.mp (Nat.le_zero.mp h1)
    subst hB
    cases f2 <;> rfl
  | succ f ih =>
    intro f2 B h1 h2
    cases B with
    | nil => cases f2 <;> rfl
    | cons b bs =>
      cases f2 with
      | zero => simp at h2
      | succ g =>
        simp only [c_parts_go]
        have hl1 : ((b :: bs).drop 12).length ≤ f := by
          simp only [List.length_drop, List.length_cons] at *
          omega
        have hl2 : ((b :: bs).drop 12).length ≤ g := by
          simp only [List.length_drop, List.length_cons] at *
          omega
        rw [ih g ((b :: bs).drop 12) hl1 hl2]

/-- Unfolding equation for c_array_parts on nonempty data. -/
lemma c_array_parts_cons (b : Nat) (bs : List Nat) :
    c_array_parts (b :: bs) =
      renderLine ((b :: bs).take 12) (!((b :: bs).drop 12).isEmpty) ::
        c_array_parts ((b :: bs).drop 12) := by
  unfold c_array_parts
  simp only [List.length_cons, c_parts_go]
  congr 1
  exact c_parts_go_irrel bs.length ((b :: bs).drop 12).length ((b :: bs).drop 12)
    (by simp only [List.length_drop, List.length_cons]; omega) (le_refl _)

/-- Scanning the rendered parts of a byte string followed by the closing
marker recovers the bytes and stops at the closing line. -/
lemma parse_go_c_array_parts :
    ∀ n (B : List Nat), B.length ≤ n → (∀ b ∈ B, b < 256) →
      ∀ acc, parse_go (c_array_parts B ++ [closingLine]) acc =
        some (acc ++ B, (c_array_parts B).length) := by
  intro n
  induction n with
  | zero =>
    intro B h hB acc
    have hBnil : B = [] := List.length_eq_zero.mp (Nat.le_zero.mp h)
    subst hBnil
    simp [c_array_parts, c_parts_go, parse_go, show pyStrip closingLine = closingLine by decide]
  | succ n ih =>
    intro B h hB acc
    cases B with
    | nil =>
      simp [c_array_parts, c_parts_go, parse_go,
        show pyStrip closingLine = closingLine by decide]
    | cons b bs =>
      rw [c_array_parts_cons, List.cons_append, parse_go,
        if_neg (pyStrip_renderLine_ne _ _),
        scanTokens_renderLine _ (fun x hx => hB x (List.take_subset 12 _ hx)) _,
        ih ((b :: bs).drop 12)
          (by simp only [List.length_drop, List.length_cons] at h ⊢; omega)
          (fun x hx => hB x (List.drop_subset 12 _ hx)) (acc ++ (b :: bs).take 12)]
      simp [List.append_assoc, List.take_append_drop]

/-- C1.  Round-trip of the Array Codec with the Scanner token collection:
for every byte sequence B, collecting the two-hex-digit 0xHH tokens, in
order, from the lines that bytes_to_c_array produces for B (the block body
assembled by embed), terminated by the closing marker line, with the
scanner function parse_c_array, yields exactly B, with the scan stopping at
the closing line. -/
theorem C1_codec_scanner_roundtrip (B : List Nat) (hB : ∀ b ∈ B, b < 256) :
    parse_c_array (c_array_parts B ++ [closingLine]) 0 =
      some (B, (c_array_parts B).length) := by
  unfold parse_c_array
  rw [List.drop_zero, parse_go_c_array_parts B.length B (le_refl _) hB []]
  simp

/-- Concrete 13-byte payload (spans two output lines) for the witnesses. -/
def bytesW : List Nat := [31, 139, 8, 0, 0, 0, 255, 11, 170, 5, 16, 32, 64]

/-! Specification-side description of the Array Codec output, written from
the words of the spec: partition into fixed-size groups of 12 bytes; render
each byte as 0xHH (uppercase hexadecimal, two digits, zero padded) joined
by comma-space, with the two-space indent of the documented block format;
suffix every line except the line containing the final byte with a trailing
comma; join the lines with newlines, no trailing newline. -/

/-- Partition of a byte sequence into successive groups of 12 (fuel-indexed
recursion, the fuel bounding the number of groups by the length). -/
def groups_go : Nat → List Nat → List (List Nat)
  | 0, _ => []
  | _, [] => []
  | f + 1, b :: bs => (b :: bs).take 12 :: groups_go f ((b :: bs).drop 12)

/-- Partition into groups of 12 with canonical fuel. -/
def groupsOf12 (B : List Nat) : List (List Nat) := groups_go B.length B

/-- Specification rendering of one line: indent and the byte renderings
joined by comma-space. -/
def specLine (chunk : List Nat) : List Char :=
  ' ' :: ' ' :: joinComma (chunk.map fmtByte)

/-- Suffix every line except the last with a trailing comma (the last line
is the one containing the final byte). -/
def commaAllButLast : List (List Char) → List (List Char)
  | [] => []
  | [l] => [l]
  | l :: l2 :: ls => (l ++ [',']) :: commaAllButLast (l2 :: ls)

/-- The full specification-side text of the Array Codec output. -/
def c_array_spec_text (B : List Nat) : List Char :=
  joinNL (commaAllButLast ((groupsOf12 B).map specLine))

/-- A nonempty byte list yields at least one group when the fuel covers it. -/
lemma groups_go_ne_nil (f : Nat) (b : Nat) (bs : List Nat)
    (h : (b :: bs).length ≤ f) : groups_go f (b :: bs) ≠ [] := by
  cases f with
  | zero => simp at h
  | succ g => simp [groups_go]

/-- The bytes_to_c_array loop computes the specification-side line list. -/
lemma c_parts_go_spec :
    ∀ n (B : List Nat), B.length ≤ n →
      c_parts_go n B = commaAllButLast ((groups_go n B).map specLine) := by
  intro n
  induction n with
  | zero =>
    intro B h
    have hB : B = [] := List.length_eq_zero.mp (Nat.le_zero.mp h)
    subst hB
    rfl
  | succ f ih =>
    intro B h
    cases B with
    | nil => rfl
    | cons b bs =>
      simp only [c_parts_go, groups_go, List.map_cons]
      have hlen : ((b :: bs).drop 12).length ≤ f := by
        simp only [List.length_drop, List.length_cons] at h ⊢
        omega
      rw [ih ((b :: bs).drop 12) hlen]
      cases hd : (b :: bs).drop 12 with
      | nil =>
        simp only [hd, List.isEmpty_nil, Bool.not_true]
        have : groups_go f ([] : List Nat) = [] := by cases f <;> rfl
        simp [this, commaAllButLast, renderLine, specLine]
      | cons d ds =>
        simp only [hd, List.isEmpty_cons, Bool.not_false]
        have hlen2 : (d :: ds).length ≤ f := by rw [← hd]; exact hlen
        obtain ⟨y, ys, hys⟩ : ∃ y ys, groups_go f (d :: ds) = y :: ys := by
          cases hgg : groups_go f (d :: ds) with
          | nil => exact absurd hgg (groups_go_ne_nil f d ds hlen2)
          | cons y ys => exact ⟨y, ys, rfl⟩
        rw [hys]
        simp only [List.map_cons, commaAllButLast]
        have hr : renderLine ((b :: bs).take 12) true =
            specLine ((b :: bs).take 12) ++ [','] := by
          simp [renderLine, specLine]
        rw [hr]

/-- C7.  The Array Codec encode produces exactly the format the spec
describes: groups of 12 bytes per line, bytes rendered 0xHH uppercase
two-digit zero-padded and joined by comma-space (after the documented
two-space indent), a trailing comma on every line except the line holding
the final byte, lines joined by newlines with no trailing newline. -/
theorem C7_codec_format (B : List Nat) :
    bytes_to_c_array B = c_array_spec_text B := by
  unfold bytes_to_c_array c_array_spec_text c_array_parts groupsOf12
  rw [c_parts_go_spec B.length B (le_refl _)]

/-- Witness for C1 at a concrete two-line payload. -/
theorem C1_codec_scanner_roundtrip_witness :
    parse_c_array (c_array_parts bytesW ++ [closingLine]) 0 =
      some (bytesW, (c_array_parts bytesW).length) :=
  C1_codec_scanner_roundtrip bytesW (by decide)

/-! Lemmas about the find_arrays scanning loop. -/

/-- Fuel irrelevance for the scanning loop: any fuel at least the number of
remaining lines gives the same result. -/
lemma find_go_irrel :
    ∀ f1 f2 (ls : List (List Char)) (i : Nat),
      ls.length ≤ f1 → ls.length ≤ f2 → find_go f1 ls i = find_go f2 ls i := by
  intro f1
  induction f1 with
  | zero =>
    intro f2 ls i h1 _
    have hls : ls = [] := List.length_eq_zero.mp (Nat.le_zero.mp h1)
    subst hls
    cases f2 <;> rfl
  | succ f ih =>
    intro f2 ls i h1 h2
    cases ls with
    | nil => cases f2 <;> rfl
    | cons l0 rest =>
      cases f2 with
      | zero => simp at h2
      | succ g =>
        simp only [List.length_cons] at h1 h2
        simp only [find_go]
        cases hm : matchComment l0 with
        | none =>
          exact ih g rest (i + 1) (by omega) (by omega)
        | some nm =>
          cases rest with
          | nil => rfl
          | cons l1 rest2 =>
            simp only [List.length_cons] at h1 h2
            by_cases hdef : matchDefine l1
            · simp only [hdef, if_true]
              cases rest2 with
              | nil => rfl
              | cons l2 rest3 =>
                simp only [List.length_cons] at h1 h2
                by_cases hdecl : matchDecl l2
                · simp only [hdecl, if_true]
                  cases hp : parse_go rest3 [] with
                  | none => rfl
                  | some dk =>
                    obtain ⟨d, k⟩ := dk
                    simp only
                    rw [ih g (rest3.drop (k + 1)) (i + 4 + k)
                      (by simp only [List.length_drop]; omega)
                      (by simp only [List.length_drop]; omega)]
                · simp only [hdecl, if_false]
                  exact ih g rest3 (i + 3) (by omega) (by omega)
            · simp only [hdef, if_false]
              exact ih g rest2 (i + 2) (by omega) (by omega)

/-- When no remaining line strips to the closing marker, the byte
collection of parse_c_array fails (the ValueError case). -/
lemma parse_go_no_closing :
    ∀ (ls : List (List Char)), (∀ l ∈ ls, pyStrip l ≠ closingLine) →
      ∀ acc, parse_go ls acc = none := by
  intro ls
  induction ls with
  | nil => intro _ acc; rfl
  | cons l rest ih =>
    intro h acc
    rw [parse_go, if_neg (h l (List.mem_cons_self l rest))]
    rw [ih (fun x hx => h x (List.mem_cons_of_mem l hx)) (acc ++ scanTokens l)]

/-- C3.  When the linear scan reaches a line opening a block (comment line
matched, then the length macro, then the array-opening declaration) and no
later line of the document strips to the closing marker, the scan of that
whole remainder is the fatal parse error: the error flag is set and no
block at all is emitted from that point on, so blocks after the malformed
one are lost; the second conjunct is the same fact for a document that
begins with the malformed block. -/
theorem C3_missing_closing_aborts (l0 l1 l2 : List Char)
    (rest : List (List Char)) (i : Nat) (nm : List Char)
    (hc : matchComment l0 = some nm) (hd : matchDefine l1 = true)
    (ha : matchDecl l2 = true)
    (hno : ∀ l ∈ rest, pyStrip l ≠ closingLine) :
    scanFrom (l0 :: l1 :: l2 :: rest) i = ⟨[], true⟩ ∧
      find_arrays (l0 :: l1 :: l2 :: rest) = ⟨[], true⟩ := by
  have main : ∀ j : Nat, scanFrom (l0 :: l1 :: l2 :: rest) j = ⟨[], true⟩ := by
    intro j
    simp only [scanFrom, List.length_cons, find_go, hc, hd, ha, if_true,
      parse_go_no_closing rest hno]
  exact ⟨main i, main 0⟩

/-- Concrete lines for the scanner witnesses. -/
def lineCommentW : List Char := "//File: index_ov2640.html.gz, Size: 2\n".toList

/-- Concrete length-macro line for the scanner witnesses. -/
def lineDefineW : List Char := "#define index_ov2640_html_gz_len 2\n".toList

/-- Concrete array-opening line for the scanner witnesses. -/
def lineDeclW : List Char := "const unsigned char index_ov2640_html_gz[] = \x7b\n".toList

/-- Concrete data line for the scanner witnesses. -/
def lineDataW : List Char := "  0x1F, 0x8B\n".toList

/-- Witness for C3: a document whose single block lacks the closing marker
scans to the fatal error with no blocks emitted. -/
theorem C3_missing_closing_aborts_witness :
    find_arrays [lineCommentW, lineDefineW, lineDeclW, lineDataW] = ⟨[], true⟩ :=
  (C3_missing_closing_aborts lineCommentW lineDefineW lineDeclW [lineDataW] 0
    ("ov2640".toList) (by decide) (by decide) (by decide) (by decide)).2

/-- C9.  Abandon-and-resume behavior of the scanner around a matched
comment line: if the immediately following line fails the length-macro
pattern, scanning resumes from the line after it (two lines past the
comment); if instead the line after the macro fails the array-opening
pattern, scanning resumes three lines past the comment.  In each case the
rest of the scan is exactly a fresh scan of the remaining lines, so every
well-formed block from the resumption point on is still found; the third
conjunct shows a well-formed block at the scan position is emitted with
its exact line span and payload. -/
theorem C9_skip_and_resume (l0 l1 l2 : List Char) (rest : List (List Char))
    (i : Nat) (nm : List Char) (hc : matchComment l0 = some nm) :
    (matchDefine l1 = false →
      scanFrom (l0 :: l1 :: l2 :: rest) i = scanFrom (l2 :: rest) (i + 2)) ∧
    (matchDefine l1 = true → matchDecl l2 = false →
      scanFrom (l0 :: l1 :: l2 :: rest) i = scanFrom rest (i + 3)) ∧
    (matchDefine l1 = true → matchDecl l2 = true →
      ∀ d k, parse_go rest [] = some (d, k) →
        scanFrom (l0 :: l1 :: l2 :: rest) i =
          ⟨⟨nm, i, i + 1, i + 3, i + 3 + k, d⟩ ::
              (scanFrom (rest.drop (k + 1)) (i + 4 + k)).blocks,
            (scanFrom (rest.drop (k + 1)) (i + 4 + k)).error⟩) := by
  refine ⟨?_, ?_, ?_⟩
  · intro hdef
    simp only [scanFrom, List.length_cons, find_go, hc, hdef, Bool.false_eq_true,
      if_false]
    exact find_go_irrel (rest.length + 1 + 1) (rest.length + 1) (l2 :: rest)
      (i + 2) (by simp) (by simp)
  · intro hdef hdecl
    simp only [scanFrom, List.length_cons, find_go, hc, hdef, hdecl, if_true,
      Bool.false_eq_true, if_false]
    exact find_go_irrel (rest.length + 1 + 1) rest.length rest (i + 3)
      (by omega) (le_refl _)
  · intro hdef hdecl d k hp
    simp only [scanFrom, List.length_cons, find_go, hc, hdef, hdecl, if_true, hp]
    rw [find_go_irrel (rest.length + 1 + 1) (rest.drop (k + 1)).length
      (rest.drop (k + 1)) (i + 4 + k) (by simp only [List.length_drop]; omega)
      (le_refl _)]

/-- Witness for C9: a comment line followed by a line that fails the
length-macro pattern; the scan continues two lines further on. -/
theorem C9_skip_and_resume_witness :
    scanFrom [lineCommentW, "garbage\n".toList, lineDeclW, lineDataW] 0 =
      scanFrom [lineDeclW, lineDataW] 2 :=
  (C9_skip_and_resume lineCommentW ("garbage\n".toList) lineDeclW [lineDataW] 0
    ("ov2640".toList) (by decide)).1 (by decide)

/-! Round trip of the UTF-8 model: encoding a successfully decoded byte
string gives back exactly the original bytes, which is what extract writes
to the output file. -/

/-- Encoding distributes over cons. -/
lemma utf8Enc_cons (cp : Nat) (cps : List Nat) :
    utf8Enc (cp :: cps) = utf8Enc1 cp ++ utf8Enc cps := by
  simp [utf8Enc]

/-- Two-byte sequences re-encode to themselves. -/
lemma utf8Enc1_two (b0 b1 : Nat) (h0 : 0xC2 ≤ b0) (h0' : b0 ≤ 0xDF)
    (h1 : 0x80 ≤ b1) (h1' : b1 ≤ 0xBF) :
    utf8Enc1 ((b0 - 0xC0) * 64 + (b1 - 0x80)) = [b0, b1] := by
  unfold utf8Enc1
  rw [if_neg (by omega), if_pos (by omega)]
  simp only [List.cons.injEq, and_true]
  omega

/-- Three-byte sequences re-encode to themselves. -/
lemma utf8Enc1_three (b0 b1 b2 : Nat) (h0 : 0xE0 ≤ b0) (h0' : b0 ≤ 0xEF)
    (h1 : 0x80 ≤ b1) (h1' : b1 ≤ 0xBF) (h2 : 0x80 ≤ b2) (h2' : b2 ≤ 0xBF)
    (hlo : 0x800 ≤ (b0 - 0xE0) * 4096 + (b1 - 0x80) * 64 + (b2 - 0x80)) :
    utf8Enc1 ((b0 - 0xE0) * 4096 + (b1 - 0x80) * 64 + (b2 - 0x80)) = [b0, b1, b2] := by
  unfold utf8Enc1
  rw [if_neg (by omega), if_neg (by omega), if_pos (by omega)]
  simp only [List.cons.injEq, and_true]
  omega

/-- Four-byte sequences re-encode to themselves. -/
lemma utf8Enc1_four (b0 b1 b2 b3 : Nat) (h0 : 0xF0 ≤ b0) (h0' : b0 ≤ 0xF4)
    (h1 : 0x80 ≤ b1) (h1' : b1 ≤ 0xBF) (h2 : 0x80 ≤ b2) (h2' : b2 ≤ 0xBF)
    (h3 : 0x80 ≤ b3) (h3' : b3 ≤ 0xBF)
    (hlo : 0x10000 ≤ (b0 - 0xF0) * 262144 + (b1 - 0x80) * 4096 +
      (b2 - 0x80) * 64 + (b3 - 0x80)) :
    utf8Enc1 ((b0 - 0xF0) * 262144 + (b1 - 0x80) * 4096 +
      (b2 - 0x80) * 64 + (b3 - 0x80)) = [b0, b1, b2, b3] := by
  unfold utf8Enc1
  rw [if_neg (by omega), if_neg (by omega), if_neg (by omega)]
  simp only [List.cons.injEq, and_true]
  omega

/-- Decoded byte strings re-encode to themselves (fuel-indexed strong
induction on the byte string). -/
lemma utf8_enc_dec :
    ∀ n (bs cps : List Nat), bs.length ≤ n → utf8Dec bs = some cps →
      utf8Enc cps = bs := by
  intro n
  induction n with
  | zero =>
    intro bs cps h hd
    have hbs : bs = [] := List.length_eq_zero.mp (Nat.le_zero.mp h)
    subst hbs
    rw [show utf8Dec [] = some [] from rfl] at hd
    rw [← Option.some.inj hd]
    rfl
  | succ n ih =>
    intro bs cps h hd
    cases bs with
    | nil =>
      rw [show utf8Dec [] = some [] from rfl] at hd
      rw [← Option.some.inj hd]
      rfl
    | cons b0 rest =>
      simp only [List.length_cons] at h
      rw [utf8Dec.eq_def] at hd
      simp only [] at hd
      by_cases h80 : b0 < 0x80
      · rw [if_pos h80] at hd
        cases hrec : utf8Dec rest with
        | none => rw [hrec] at hd; simp at hd
        | some cps2 =>
          rw [hrec] at hd
          simp only [Option.map_some', Option.some.injEq] at hd
          subst hd
          rw [utf8Enc_cons, ih rest cps2 (by omega) hrec]
          simp [utf8Enc1, h80]
      · rw [if_neg h80] at hd
        cases rest with
        | nil => simp at hd
        | cons b1 rest1 =>
          simp only [List.length_cons] at h
          simp only [] at hd
          by_cases hC : 0xC2 ≤ b0 ∧ b0 ≤ 0xDF
          · rw [if_pos hC] at hd
            by_cases hB1 : 0x80 ≤ b1 ∧ b1 ≤ 0xBF
            · rw [if_pos hB1] at hd
              cases hrec : utf8Dec rest1 with
              | none => rw [hrec] at hd; simp at hd
              | some cps2 =>
                rw [hrec] at hd
                simp only [Option.map_some', Option.some.injEq] at hd
                subst hd
                rw [utf8Enc_cons, ih rest1 cps2 (by omega) hrec,
                  utf8Enc1_two b0 b1 hC.1 hC.2 hB1.1 hB1.2]
                rfl
            · rw [if_neg hB1] at hd; simp at hd
          · rw [if_neg hC] at hd
            cases rest1 with
            | nil => simp at hd
            | cons b2 rest2 =>
              simp only [List.length_cons] at h
              simp only [] at hd
              by_cases hE : 0xE0 ≤ b0 ∧ b0 ≤ 0xEF
              · rw [if_pos hE] at hd
                by_cases hcnd :
                    (if b0 = 0xE0 then 0xA0 ≤ b1 ∧ b1 ≤ 0xBF
                     else if b0 = 0xED then 0x80 ≤ b1 ∧ b1 ≤ 0x9F
                     else 0x80 ≤ b1 ∧ b1 ≤ 0xBF) ∧ 0x80 ≤ b2 ∧ b2 ≤ 0xBF
                · rw [if_pos hcnd] at hd
                  obtain ⟨hif, hb2⟩ := hcnd
                  have hb1 : 0x80 ≤ b1 ∧ b1 ≤ 0xBF := by
                    by_cases he0 : b0 = 0xE0
                    · rw [if_pos he0] at hif; omega
                    · rw [if_neg he0] at hif
                      by_cases hed : b0 = 0xED
                      · rw [if_pos hed] at hif; omega
                      · rw [if_neg hed] at hif; omega
                  have hlo : 0x800 ≤ (b0 - 0xE0) * 4096 + (b1 - 0x80) * 64 +
                      (b2 - 0x80) := by
                    by_cases he0 : b0 = 0xE0
                    · rw [if_pos he0] at hif; omega
                    · omega
                  cases hrec : utf8Dec rest2 with
                  | none => rw [hrec] at hd; simp at hd
                  | some cps2 =>
                    rw [hrec] at hd
                    simp only [Option.map_some', Option.some.injEq] at hd
                    subst hd
                    rw [utf8Enc_cons, ih rest2 cps2 (by omega) hrec,
                      utf8Enc1_three b0 b1 b2 hE.1 hE.2 hb1.1 hb1.2 hb2.1 hb2.2 hlo]
                    rfl
                · rw [if_neg hcnd] at hd; simp at hd
              · rw [if_neg hE] at hd
                cases rest2 with
                | nil => simp at hd
                | cons b3 rest3 =>
                  simp only [List.length_cons] at h
                  simp only [] at hd
                  by_cases hF : 0xF0 ≤ b0 ∧ b0 ≤ 0xF4
                  · rw [if_pos hF] at hd
                    by_cases hcnd :
                        (if b0 = 0xF0 then 0x90 ≤ b1 ∧ b1 ≤ 0xBF
                         else if b0 = 0xF4 then 0x80 ≤ b1 ∧ b1 ≤ 0x8F
                         else 0x80 ≤ b1 ∧ b1 ≤ 0xBF) ∧
                        0x80 ≤ b2 ∧ b2 ≤ 0xBF ∧ 0x80 ≤ b3 ∧ b3 ≤ 0xBF
                    · rw [if_pos hcnd] at hd
                      obtain ⟨hif, hb2l, hb2h, hb3l, hb3h⟩ := hcnd
                      have hb1 : 0x80 ≤ b1 ∧ b1 ≤ 0xBF := by
                        by_cases hf0 : b0 = 0xF0
                        · rw [if_pos hf0] at hif; omega
                        · rw [if_neg hf0] at hif
                          by_cases hf4 : b0 = 0xF4
                          · rw [if_pos hf4] at hif; omega
                          · rw [if_neg hf4] at hif; omega
                      have hlo : 0x10000 ≤ (b0 - 0xF0) * 262144 +
                          (b1 - 0x80) * 4096 + (b2 - 0x80) * 64 + (b3 - 0x80) := by
                        by_cases hf0 : b0 = 0xF0
                        · rw [if_pos hf0] at hif; omega
                        · omega
                      cases hrec : utf8Dec rest3 with
                      | none => rw [hrec] at hd; simp at hd
                      | some cps2 =>
                        rw [hrec] at hd
                        simp only [Option.map_some', Option.some.injEq] at hd
                        subst hd
                        rw [utf8Enc_cons, ih rest3 cps2 (by omega) hrec,
                          utf8Enc1_four b0 b1 b2 b3 hF.1 hF.2 hb1.1 hb1.2
                            hb2l hb2h hb3l hb3h hlo]
                        rfl
                    · rw [if_neg hcnd] at hd; simp at hd
                  · rw [if_neg hF] at hd; simp at hd

/-! The extract pipeline claims. -/

/-- The extract loop handles each block independently, in order. -/
lemma extract_go_eq_map (dec : List Nat → Option (List Nat)) :
    ∀ bl : List CBlock, extract_go dec bl = bl.map (procBlock dec) := by
  intro bl
  induction bl with
  | nil => rfl
  | cons b rest ih => simp [extract_go, ih]

/-- A concrete document with one well-formed ov2640 block, used by the
witnesses: noise line, three-line header, one data line, closing marker,
trailing line. -/
def docA : List (List Char) :=
  ["// x\n".toList, lineCommentW, lineDefineW, lineDeclW, lineDataW,
   "\x7d;\n".toList, "tail\n".toList]

/-- The block the scanner finds in docA. -/
def blkA : CBlock := ⟨"ov2640".toList, 1, 2, 4, 5, [31, 139]⟩

/-- C5.  If decompression of one block fails during extraction, a warning
naming that block is recorded in its place, no file-write event occurs for
it, and every other block of the document is still processed exactly as it
would be on its own: one corrupt block does not abort extraction of the
others (one event per scanned block). -/
theorem C5_decompress_failure_isolated (dec : List Nat → Option (List Nat))
    (doc : List (List Char)) (i : Nat) (b : CBlock)
    (hb : ((find_arrays doc).blocks)[i]? = some b)
    (hdec : dec b.data = none) :
    (extract dec doc).1.length = (find_arrays doc).blocks.length ∧
    ((extract dec doc).1)[i]? = some (ExtractEvent.warn b.name) ∧
    ∀ j, j ≠ i → ((extract dec doc).1)[j]? =
      (((find_arrays doc).blocks)[j]?).map (procBlock dec) := by
  unfold extract
  refine ⟨by simp [extract_go_eq_map], ?_, ?_⟩
  · simp only [extract_go_eq_map, List.getElem?_map, hb, Option.map_some']
    simp [procBlock, hdec]
  · intro j _
    simp [extract_go_eq_map, List.getElem?_map]

/-- Witness for C5 at the concrete document with an always-failing
decompressor. -/
theorem C5_decompress_failure_isolated_witness :
    (extract (fun _ => none) docA).1.length = (find_arrays docA).blocks.length ∧
    ((extract (fun _ => none) docA).1)[0]? =
      some (ExtractEvent.warn blkA.name) :=
  ⟨(C5_decompress_failure_isolated (fun _ => none) docA 0 blkA (by decide) rfl).1,
   (C5_decompress_failure_isolated (fun _ => none) docA 0 blkA (by decide) rfl).2.1⟩

/-- C10.  A block whose payload decompresses but whose decompressed bytes
are not valid UTF-8 is handled exactly like a decompression failure, since
the decode step sits in the same try block: a warning naming the block is
the recorded event, no write happens for it, and all other blocks are still
processed. -/
theorem C10_bad_utf8_like_decompress_failure (dec : List Nat → Option (List Nat))
    (doc : List (List Char)) (i : Nat) (b : CBlock) (bs : List Nat)
    (hb : ((find_arrays doc).blocks)[i]? = some b)
    (hdec : dec b.data = some bs) (hutf : utf8Dec bs = none) :
    (extract dec doc).1.length = (find_arrays doc).blocks.length ∧
    ((extract dec doc).1)[i]? = some (ExtractEvent.warn b.name) ∧
    ∀ j, j ≠ i → ((extract dec doc).1)[j]? =
      (((find_arrays doc).blocks)[j]?).map (procBlock dec) := by
  unfold extract
  refine ⟨by simp [extract_go_eq_map], ?_, ?_⟩
  · simp only [extract_go_eq_map, List.getElem?_map, hb, Option.map_some']
    simp [procBlock, hdec, hutf]
  · intro j _
    simp [extract_go_eq_map, List.getElem?_map]

/-- Witness for C10: decompression yields the lone continuation byte 0x80,
which is not valid UTF-8; the block is warned about, not written. -/
theorem C10_bad_utf8_like_decompress_failure_witness :
    ((extract (fun _ => some [0x80]) docA).1)[0]? =
      some (ExtractEvent.warn blkA.name) :=
  (C10_bad_utf8_like_decompress_failure (fun _ => some [0x80]) docA 0 blkA
    [0x80] (by decide) rfl (by decide)).2.1

/-- C4 (amended).  For every block whose payload decompresses successfully
and whose decompressed bytes are valid UTF-8, extract records a write of
exactly the decompressed bytes to the file named index_(name).html derived
from the block identifier, reporting the character count of the decoded
text (not in general the output byte count). -/
theorem C4_extract_writes_decoded (dec : List Nat → Option (List Nat))
    (doc : List (List Char)) (i : Nat) (b : CBlock) (bs cps : List Nat)
    (hb : ((find_arrays doc).blocks)[i]? = some b)
    (hdec : dec b.data = some bs) (hutf : utf8Dec bs = some cps) :
    ((extract dec doc).1)[i]? =
      some (ExtractEvent.wrote (outName b.name) bs cps.length) := by
  unfold extract
  simp only [extract_go_eq_map, List.getElem?_map, hb, Option.map_some']
  have hp : procBlock dec b =
      ExtractEvent.wrote (outName b.name) (utf8Enc cps) cps.length := by
    simp [procBlock, hdec, hutf]
  rw [hp, utf8_enc_dec bs.length bs cps (le_refl _) hutf]

/-- Witness for the amended C4: an ASCII payload is written byte-identical
with its character count reported. -/
theorem C4_extract_writes_decoded_witness :
    ((extract (fun _ => some [0x41]) docA).1)[0]? =
      some (ExtractEvent.wrote (outName blkA.name) [0x41] 1) :=
  C4_extract_writes_decoded (fun _ => some [0x41]) docA 0 blkA [0x41] [0x41]
    (by decide) rfl (by decide)

/-- Counterexample to C4 as stated.  First conjunct: the block payload
decompresses successfully (to the byte 0x80), yet no file is written for
it — the event is a warning — because the decompressed bytes fail the
UTF-8 decode that precedes writing.  Second and third conjuncts: with a
payload decompressing to the two bytes 0xC3 0xA9 (the letter e-acute),
a file is written with those 2 bytes but the report says 1, the character
count, so the reported number is not the output byte count. -/
theorem C4_as_stated_counterexample :
    (extract (fun _ => some [0x80]) docA).1 =
      [ExtractEvent.warn ("ov2640".toList)] ∧
    (extract (fun _ => some [0xC3, 0xA9]) docA).1 =
      [ExtractEvent.wrote (outName ("ov2640".toList)) [0xC3, 0xA9] 1] ∧
    ([0xC3, 0xA9] : List Nat).length = 2 :=
  ⟨by decide, by decide, rfl⟩

/-! The embed pipeline claims. -/

/-- The closing-line offset returned by the byte collection lies inside the
scanned lines. -/
lemma parse_go_some_lt :
    ∀ (ls : List (List Char)) (acc d : List Nat) (k : Nat),
      parse_go ls acc = some (d, k) → k < ls.length := by
  intro ls
  induction ls with
  | nil => intro acc d k h; simp [parse_go] at h
  | cons l rest ih =>
    intro acc d k h
    rw [parse_go] at h
    by_cases hc : pyStrip l = closingLine
    · rw [if_pos hc] at h
      simp only [Option.some.injEq, Prod.mk.injEq] at h
      simp [← h.2]
    · rw [if_neg hc] at h
      cases hp : parse_go rest (acc ++ scanTokens l) with
      | none => rw [hp] at h; simp at h
      | some dk =>
        obtain ⟨d2, k2⟩ := dk
        rw [hp] at h
        simp only [Option.some.injEq, Prod.mk.injEq] at h
        have := ih (acc ++ scanTokens l) d2 k2 hp
        simp only [List.length_cons]
        omega

/-- Every block yielded by the scanning loop lies inside the scanned lines:
its comment line is at or after the scan start, the closing marker is at
least three lines later, and it ends before the end of the document. -/
lemma find_go_blocks_bounds :
    ∀ fuel (ls : List (List Char)) (i : Nat) (b : CBlock),
      b ∈ (find_go fuel ls i).blocks →
      i ≤ b.comment_line ∧ b.comment_line + 3 ≤ b.end_idx ∧
        b.end_idx < i + ls.length := by
  intro fuel
  induction fuel with
  | zero => intro ls i b hb; simp [find_go] at hb
  | succ f ih =>
    intro ls i b hb
    cases ls with
    | nil => simp [find_go] at hb
    | cons l0 rest =>
      simp only [find_go] at hb
      cases hm : matchComment l0 with
      | none =>
        simp only [hm] at hb
        have := ih rest (i + 1) b hb
        simp only [List.length_cons]
        omega
      | some nm =>
        simp only [hm] at hb
        cases rest with
        | nil => simp at hb
        | cons l1 rest2 =>
          by_cases hdef : matchDefine l1
          · simp only [hdef, if_true] at hb
            cases rest2 with
            | nil => simp at hb
            | cons l2 rest3 =>
              by_cases hdecl : matchDecl l2
              · simp only [hdecl, if_true] at hb
                cases hp : parse_go rest3 [] with
                | none => simp only [hp] at hb; simp at hb
                | some dk =>
                  obtain ⟨d, k⟩ := dk
                  simp only [hp, List.mem_cons] at hb
                  have hk := parse_go_some_lt rest3 [] d k hp
                  rcases hb with rfl | hb
                  · refine ⟨Nat.le_refl i, Nat.le_add_right _ k, ?_⟩
                    show i + 3 + k < i + (l0 :: l1 :: l2 :: rest3).length
                    simp only [List.length_cons]
                    omega
                  · have := ih (rest3.drop (k + 1)) (i + 4 + k) b hb
                    simp only [List.length_drop] at this
                    simp only [List.length_cons]
                    omega
              · simp only [hdecl, if_false] at hb
                have := ih rest3 (i + 3) b hb
                simp only [List.length_cons]
                omega
          · simp only [hdef, if_false] at hb
            have := ih rest2 (i + 2) b hb
            simp only [List.length_cons]
            omega

/-- A block located by the embed loop was yielded by the scanner. -/
lemma embed_locate_mem (name : List Char) (doc : List (List Char)) (b : CBlock)
    (hloc : embed_locate name doc = LocateResult.found b) :
    b ∈ (find_arrays doc).blocks := by
  unfold embed_locate at hloc
  cases hf : (find_arrays doc).blocks.find? (fun x => x.name == name) with
  | none =>
    rw [hf] at hloc
    by_cases herr : (find_arrays doc).error <;> simp [herr] at hloc
  | some b2 =>
    rw [hf] at hloc
    simp only [LocateResult.found.injEq] at hloc
    subst hloc
    exact List.mem_of_find?_eq_some hf

/-- C2.  Splice locality of the in-place embed: when the scanner locates a
block for the identifier and the document is rewritten, every line before
the comment line of the located block appears byte-identical at the same
position of the output, and every line after the closing-marker line
appears byte-identical, in the same order, shifted to just after the single
replacement entry. -/
theorem C2_inplace_splice_preserves_outside (name : List Char) (html : List Nat)
    (compressFn : List Nat → List Nat) (doc out : List (List Char)) (b : CBlock)
    (hloc : embed_locate name doc = LocateResult.found b)
    (hrun : embed_run name html compressFn doc true = EmbedOutcome.updated out) :
    (∀ j, j < b.comment_line → out[j]? = doc[j]?) ∧
    (∀ j, b.end_idx < j → j < doc.length →
      out[b.comment_line + (j - b.end_idx)]? = doc[j]?) := by
  have hmem := embed_locate_mem name doc b hloc
  have hbounds := find_go_blocks_bounds doc.length doc 0 b hmem
  obtain ⟨-, hse, hel⟩ := hbounds
  unfold embed_run at hrun
  by_cases hv : name ∈ validNames
  · rw [if_pos hv] at hrun
    simp only [if_true, hloc] at hrun
    simp only [EmbedOutcome.updated.injEq] at hrun
    subst hrun
    have hsl : b.comment_line < doc.length := by omega
    constructor
    · intro j hj
      rw [List.getElem?_append, if_pos (by
        simp only [List.length_append, List.length_take, List.length_cons,
          List.length_nil]
        omega)]
      rw [List.getElem?_append, if_pos (by
        simp only [List.length_take]
        omega)]
      rw [List.getElem?_take, if_pos hj]
    · intro j hje hjl
      have hlen1 : (doc.take b.comment_line ++
          [assembleBlock name (compressFn html)]).length = b.comment_line + 1 := by
        simp only [List.length_append, List.length_take, List.length_cons,
          List.length_nil]
        omega
      rw [List.getElem?_append, if_neg (by rw [hlen1]; omega), hlen1]
      rw [List.getElem?_drop]
      have harith : b.end_idx + 1 +
          (b.comment_line + (j - b.end_idx) - (b.comment_line + 1)) = j := by
        omega
      rw [harith]
  · rw [if_neg hv] at hrun
    simp at hrun

/-- Replacement payload used by the embed witnesses. -/
def gzW : List Nat := [0xAB]

/-- The output document of the witness in-place embed on docA. -/
def outA : List (List Char) :=
  docA.take 1 ++ [assembleBlock ("ov2640".toList) gzW] ++ docA.drop 6

/-- Witness for C2: in docA the block spans lines 1 to 5; line 0 before it
and line 6 after it are preserved byte-identical by the splice. -/
theorem C2_inplace_splice_preserves_outside_witness :
    outA[0]? = docA[0]? ∧ outA[blkA.comment_line + (6 - blkA.end_idx)]? = docA[6]? :=
  ⟨(C2_inplace_splice_preserves_outside ("ov2640".toList) [] (fun _ => gzW)
      docA outA blkA (by decide) (by decide)).1 0 (by decide),
   (C2_inplace_splice_preserves_outside ("ov2640".toList) [] (fun _ => gzW)
      docA outA blkA (by decide) (by decide)).2 6 (by decide) (by decide)⟩

/-- C6.  In-place embed with a valid identifier for which the scanner
yields no block fails fatally — either the explicit not-found exit or the
ValueError escaping from a malformed scan, both with nonzero status — and
no rewritten document is ever produced, so the target file is left
unmodified (the write only happens on the updated outcome). -/
theorem C6_inplace_missing_block_fatal (name : List Char) (html : List Nat)
    (compressFn : List Nat → List Nat) (doc : List (List Char))
    (hv : name ∈ validNames)
    (hnone : ∀ b ∈ (find_arrays doc).blocks, b.name ≠ name) :
    (embed_run name html compressFn doc true = EmbedOutcome.notFound ∨
      embed_run name html compressFn doc true = EmbedOutcome.parseErrored) ∧
    ∀ d, embed_run name html compressFn doc true ≠ EmbedOutcome.updated d := by
  have hfind : (find_arrays doc).blocks.find? (fun b => b.name == name) = none := by
    rw [List.find?_eq_none]
    intro x hx
    simp [hnone x hx]
  have hval : embed_run name html compressFn doc true =
      (if (find_arrays doc).error then EmbedOutcome.parseErrored
       else EmbedOutcome.notFound) := by
    unfold embed_run embed_locate
    rw [if_pos hv]
    simp only [if_true, hfind]
    by_cases herr : (find_arrays doc).error
    · simp [herr]
    · simp [herr]
  by_cases herr : (find_arrays doc).error
  · rw [hval, if_pos herr]
    exact ⟨Or.inr rfl, fun d h => by simp at h⟩
  · rw [hval, if_neg herr]
    exact ⟨Or.inl rfl, fun d h => by simp at h⟩

/-- Witness for C6: a document with no blocks at all. -/
theorem C6_inplace_missing_block_fatal_witness :
    embed_run ("ov2640".toList) [] (fun _ => []) ["x\n".toList] true =
        EmbedOutcome.notFound ∨
      embed_run ("ov2640".toList) [] (fun _ => []) ["x\n".toList] true =
        EmbedOutcome.parseErrored :=
  (C6_inplace_missing_block_fatal ("ov2640".toList) [] (fun _ => [])
    ["x\n".toList] (by decide) (by decide)).1

/-- C8.  An identifier outside the recognized set makes embed exit with the
invalid-name failure whatever the replacement file content, the compression
function, the target document and the inplace flag are: the outcome is
independent of all of them, so the failure happens before the replacement
file is read and before anything is compressed or written. -/
theorem C8_invalid_name_fails_first (name : List Char)
    (hname : name ∉ validNames) :
    ∀ (html : List Nat) (compressFn : List Nat → List Nat)
      (doc : List (List Char)) (inplace : Bool),
      embed_run name html compressFn doc inplace = EmbedOutcome.invalidName := by
  intro html compressFn doc inplace
  unfold embed_run
  rw [if_neg hname]

/-- Witness for C8 at a concrete invalid identifier. -/
theorem C8_invalid_name_fails_first_witness :
    embed_run ("ov9999".toList) [1, 2] (fun bs => bs) docA true =
      EmbedOutcome.invalidName :=
  C8_invalid_name_fails_first ("ov9999".toList) (by decide) [1, 2]
    (fun bs => bs) docA true
